import Mathlib

/-!
Verification of `librosa/decompose.py` (spectrogram decomposition:
`decompose`, `hpss`, `nn_filter`) against its natural-language
specification.

Numeric arrays are embedded as rational-valued matrices: a `Mat` is a
pair of dimensions together with a total entry function.  Elementwise
NumPy operations become pointwise operations on entry functions, the
floating-point exponent `x ** power` is abstracted by an explicit
function parameter `rpow` (the theorems below hold for every such
function), and the stateful pieces of the source (`nn_filter`'s output
buffer, the transformer's fitted state) are embedded as explicit state
records threaded through the computation.
-/

namespace LibrosaDecompose

/-- A numeric 2-D array: dimensions plus a total entry function
`entry row col`. -/
structure Mat where
  rows : ℕ
  cols : ℕ
  entry : ℕ → ℕ → ℚ

/-- Extensional equality of matrices on their declared index ranges. -/
def Mat.Eqv (A B : Mat) : Prop :=
  A.rows = B.rows ∧ A.cols = B.cols ∧
    ∀ i < A.rows, ∀ j < A.cols, A.entry i j = B.entry i j

/-- Mirror of `S.copy()`: a fresh array with the same entries. -/
def Mat.copy (A : Mat) : Mat :=
  Mat.mk A.rows A.cols (fun i j => A.entry i j)

/-- Pointwise combination of two arrays (dimensions of the first). -/
def Mat.map2 (f : ℚ → ℚ → ℚ) (A B : Mat) : Mat :=
  Mat.mk A.rows A.cols (fun i j => f (A.entry i j) (B.entry i j))

/-- Elementwise sum. -/
def Mat.add (A B : Mat) : Mat :=
  Mat.map2 (fun x y => x + y) A B

/-- Elementwise (Hadamard) product, as in NumPy `*`. -/
def Mat.hadamard (A B : Mat) : Mat :=
  Mat.map2 (fun x y => x * y) A B

/-- Constant array. -/
def Mat.const (r c : ℕ) (x : ℚ) : Mat :=
  Mat.mk r c (fun _ _ => x)

/-- Matrix transpose, as in NumPy `.T`. -/
def Mat.transpose (A : Mat) : Mat :=
  Mat.mk A.cols A.rows (fun i j => A.entry j i)

/-- Matrix product `A.dot(B)` (inner dimension taken from `A.cols`). -/
def Mat.mul (A B : Mat) : Mat :=
  Mat.mk A.rows B.cols
    (fun i j => ((List.range A.cols).map (fun k => A.entry i k * B.entry k j)).sum)

/-- Modelled from the spec: `librosa.util.SMALL_FLOAT`, the epsilon
threshold used by `hpss` (the smallest positive normalized double,
`np.finfo(float).tiny`); the source file only imports it. -/
def SMALL_FLOAT : ℚ := 1 / 2 ^ 1022

/-- Index folding for the `mode='reflect'` boundary handling of
`scipy.ndimage.median_filter` (half-sample symmetric extension):
`... b a | a b c d | d c ...`, extended periodically with period `2*n`. -/
def reflectIdx (n : ℕ) (i : ℤ) : ℕ :=
  let m := (i % (2 * (n : ℤ))).toNat
  if m < n then m else 2 * n - 1 - m

/-- Rank selection after sorting: element `k` of the ascending sort of
the window (`scipy` uses rank `size / 2` for its median filter). -/
def medianAt (l : List ℚ) (k : ℕ) : ℚ :=
  (l.insertionSort (fun a b => a ≤ b)).getD k 0

/-- `median_filter(S, size=(1, w), mode='reflect')`: horizontal median
along the time (column) axis, window centered with offsets
`j - w/2 + t` for `t < w`. -/
def medianFilterH (S : Mat) (w : ℕ) : Mat :=
  Mat.mk S.rows S.cols (fun i j =>
    medianAt ((List.range w).map
      (fun t : ℕ => S.entry i (reflectIdx S.cols ((j : ℤ) + (t : ℤ) - ((w / 2 : ℕ) : ℤ))))) (w / 2))

/-- `median_filter(S, size=(w, 1), mode='reflect')`: vertical median
along the frequency (row) axis. -/
def medianFilterV (S : Mat) (w : ℕ) : Mat :=
  Mat.mk S.rows S.cols (fun i j =>
    medianAt ((List.range w).map
      (fun t : ℕ => S.entry (reflectIdx S.rows ((i : ℤ) + (t : ℤ) - ((w / 2 : ℕ) : ℤ))) j)) (w / 2))

/-- Input to `hpss`: either a real (magnitude) array, or a complex
array represented by its `magphase` decomposition (modelled from the
spec: `core.magphase` splits a complex `S` into a magnitude array and a
unit-modulus phase array with `S = mag * phase`; it is imported, not
defined, in the source file). -/
inductive Spectro where
| real (S : Mat)
| complex (mag phase : Mat)

/-- Magnitude array the filtering operates on (line `S, phase = magphase(S)`). -/
def Spectro.mag : Spectro → Mat
| Spectro.real S => S
| Spectro.complex m _ => m

/-- Phase factor reapplied to the outputs; the scalar `phase = 1` of the
real branch is embedded as a constant array. -/
def Spectro.phaseM : Spectro → Mat
| Spectro.real S => Mat.const S.rows S.cols 1
| Spectro.complex _ p => p

/-- The array the caller passed to `hpss`: the real array itself, or
`mag * phase` for a complex input. -/
def Spectro.original : Spectro → Mat
| Spectro.real S => S
| Spectro.complex m p => m.hadamard p

/-- Pointwise mask construction of `hpss` (lines 312-332).  `useHard`
is the branch condition `mask or power < SMALL_FLOAT`.  The soft branch
mirrors, per entry: raising to `power` (via the abstract `rpow`),
clamping values below `SMALL_FLOAT` to `0`, the `0.5` tie-break where
both clamp flags hold, and the final Wiener quotients. -/
def maskEntries (rpow : ℚ → ℚ → ℚ) (power : ℚ) (useHard : Bool) (h p : ℚ) : ℚ × ℚ :=
  if useHard then
    (if p < h then 1 else 0, 1 - (if p < h then 1 else 0))
  else
    let pr := rpow p power
    let hr := rpow h power
    let p2 := if pr < SMALL_FLOAT then 0 else pr
    let h2 := if hr < SMALL_FLOAT then 0 else hr
    let h3 := if hr < SMALL_FLOAT ∧ pr < SMALL_FLOAT then 1 / 2 else h2
    let p3 := if hr < SMALL_FLOAT ∧ pr < SMALL_FLOAT then 1 / 2 else p2
    (h3 / (h3 + p3), p3 / (h3 + p3))

/-- The pair `(mask_harm, mask_perc)` computed inside `hpss` from the
two directional median-filter responses. -/
def hpssMasks (rpow : ℚ → ℚ → ℚ) (S : Mat) (winHarm winPerc : ℕ)
    (power : ℚ) (mask : Bool) : Mat × Mat :=
  let harm := medianFilterH S winHarm
  let perc := medianFilterV S winPerc
  let useHard := mask || decide (power < SMALL_FLOAT)
  (Mat.mk S.rows S.cols
     (fun i j => (maskEntries rpow power useHard (harm.entry i j) (perc.entry i j)).1),
   Mat.mk S.rows S.cols
     (fun i j => (maskEntries rpow power useHard (harm.entry i j) (perc.entry i j)).2))

/-- `hpss(S, kernel_size, power, mask)` with the kernel sizes already
resolved to the two window widths.  Returns the mask pair when
`mask=True`, otherwise `((S * mask_harm) * phase, (S * mask_perc) * phase)`
(line 334). -/
def hpss (rpow : ℚ → ℚ → ℚ) (inp : Spectro) (winHarm winPerc : ℕ)
    (power : ℚ) (mask : Bool) : Mat × Mat :=
  let S := inp.mag
  let phase := inp.phaseM
  let mh := (hpssMasks rpow S winHarm winPerc power mask).1
  let mp := (hpssMasks rpow S winHarm winPerc power mask).2
  if mask then (mh, mp)
  else ((S.hadamard mh).hadamard phase, (S.hadamard mp).hadamard phase)

/-- `kernel_size`: a scalar or a pair, as accepted by `hpss`
(lines 298-303); integer-valued, possibly non-positive. -/
inductive KernelSize where
| scalar (k : ℤ)
| pair (kh kp : ℤ)

/-- Lines 298-303: resolve `kernel_size` into `(win_harm, win_perc)`. -/
def resolveKernel : KernelSize → ℤ × ℤ
| KernelSize.scalar k => (k, k)
| KernelSize.pair a b => (a, b)

/-- Failure modes of an `hpss` call: the library's `ParameterError`
versus an error surfacing from the external median filter. -/
inductive HpssError where
| parameterError
| filterError

/-- Call wrapper for `hpss` including failure behaviour.  Modelled from
the spec (§7): `hpss` itself performs no kernel validation; a
non-positive window size fails inside `scipy.ndimage.median_filter`
with that library's own error, which is not a `ParameterError`. -/
def hpssRun (rpow : ℚ → ℚ → ℚ) (inp : Spectro) (ks : KernelSize)
    (power : ℚ) (mask : Bool) : Except HpssError (Mat × Mat) :=
  let wh := (resolveKernel ks).1
  let wp := (resolveKernel ks).2
  if wh ≤ 0 ∨ wp ≤ 0 then Except.error HpssError.filterError
  else Except.ok (hpss rpow inp wh.toNat wp.toNat power mask)

/-- State-passing wrapper for `hpss`: the caller's arrays are returned
alongside the outputs.  The body of `hpss` writes only the freshly
allocated `harm`/`perc` buffers and the returned products (lines
306-334); it never assigns into the caller's array. -/
def hpssCall (rpow : ℚ → ℚ → ℚ) (inp : Spectro) (winHarm winPerc : ℕ)
    (power : ℚ) (mask : Bool) : Spectro × (Mat × Mat) :=
  (inp, hpss rpow inp winHarm winPerc power mask)

/-- The `aggregate` argument of `nn_filter`: either the weighted-average
reducer `np.average` (recognized by identity in the source, line 479) or
any other reduction, applied per feature row to the list of gathered
neighbor values. -/
inductive Aggregate where
| average
| other (f : List ℚ → ℚ)

/-- Errors an `nn_filter` call can surface: the library's
`ParameterError` from shape validation, or (modelled from the NumPy
documentation for `np.average`) a `TypeError` when the weights array is
not 1-D while shapes differ, or a `ZeroDivisionError` when the weights
sum to zero. -/
inductive NnError where
| parameterError
| npTypeError
| npZeroDivision

/-- Line 473, `rec[i].nonzero()[-1]`: the column indices of the nonzero
entries of row `i` of the (row-compressed) similarity graph, in
ascending order. -/
def rowTargets (rec : Mat) (i : ℕ) : List ℕ :=
  (List.range rec.cols).filter (fun j => decide (rec.entry i j ≠ 0))

/-- Assignment `s_out[:, i] = g` for the default filtering axis (the
last axis of a 2-D array): replace column `i`, leave the rest. -/
def setCol (A : Mat) (i : ℕ) (g : ℕ → ℚ) : Mat :=
  Mat.mk A.rows A.cols (fun r c => if c = i then g r else A.entry r c)

/-- Result of `rec[i, targets].toarray().squeeze()` (line 480): NumPy's
`squeeze` drops every size-one axis, so a single extracted weight
collapses to a 0-d scalar, and two or more weights give a 1-D vector. -/
inductive Squeezed where
| scalar (x : ℚ)
| vec (l : List ℚ)

/-- Squeeze of the `(1, k)` weight row extracted from `rec`. -/
def squeezeRow : List ℚ → Squeezed
| [x] => Squeezed.scalar x
| l => Squeezed.vec l

/-- Explicit state of the `nn_filter` loop: the input array `S`, the
similarity graph `rec`, and the output buffer `s_out` (initialized to
`S.copy()`, line 465). -/
structure NnState where
  S : Mat
  recMat : Mat
  s_out : Mat

/-- One iteration of the `nn_filter` loop (lines 469-483) at index `i`:
read the neighbor set from row `i` of `rec`; skip if empty; otherwise
gather the neighbor columns of the ORIGINAL input `st.S` (line 477,
`np.take(S, targets, axis=axis)`) and write their aggregate into column
`i` of `s_out`.  For `np.average` the weights are the nonzero entries
of row `i` of `rec`, extracted and squeezed as in line 480. -/
def nnStep (agg : Aggregate) (st : NnState) (i : ℕ) : Except NnError NnState :=
  let targets := rowTargets st.recMat i
  if targets = [] then Except.ok st
  else
    match agg with
    | Aggregate.average =>
      match squeezeRow (targets.map (fun t => st.recMat.entry i t)) with
      | Squeezed.scalar _ => Except.error NnError.npTypeError
      | Squeezed.vec l =>
        if l.sum = 0 then Except.error NnError.npZeroDivision
        else
          let g := fun r => (List.zipWith (fun w t => w * st.S.entry r t) l targets).sum / l.sum
          Except.ok { st with s_out := setCol st.s_out i g }
    | Aggregate.other f =>
      let g := fun r => f (targets.map (fun t => st.S.entry r t))
      Except.ok { st with s_out := setCol st.s_out i g }

/-- The loop `for i in range(rec.shape[0])` threaded over the explicit
state. -/
def nnLoop (agg : Aggregate) (n : ℕ) (st : NnState) : Except NnError NnState :=
  (List.range n).foldlM (nnStep agg) st

/-- `nn_filter(S, rec, aggregate)` for the default filtering axis,
returning the full final state: shape validation (lines 460-463) first,
then the loop started from `s_out = S.copy()`. -/
def nn_filterSt (agg : Aggregate) (S rec : Mat) : Except NnError NnState :=
  if rec.rows ≠ S.cols ∨ rec.rows ≠ rec.cols then Except.error NnError.parameterError
  else nnLoop agg rec.rows (NnState.mk S rec S.copy)

/-- `nn_filter` proper: the returned `s_out`. -/
def nn_filter (agg : Aggregate) (S rec : Mat) : Except NnError Mat :=
  Except.map NnState.s_out (nn_filterSt agg S rec)

/-- Whether an `Except` carries a success value. -/
def exOk {ε α : Type} : Except ε α → Bool
| Except.ok _ => true
| Except.error _ => false

/-- Success projection for `nn_filter` results (junk on error). -/
def okMat (e : Except NnError Mat) : Mat :=
  match e with
  | Except.ok m => m
  | Except.error _ => Mat.mk 0 0 (fun _ _ => 0)

/-- Success projection for `nn_filterSt` results (junk on error). -/
def okSt (e : Except NnError NnState) : NnState :=
  match e with
  | Except.ok st => st
  | Except.error _ => NnState.mk (Mat.mk 0 0 (fun _ _ => 0)) (Mat.mk 0 0 (fun _ _ => 0)) (Mat.mk 0 0 (fun _ _ => 0))

/-- Value the specification prescribes for the filtered column `i` at
feature row `r`: the aggregate, over the nonzero column indices of row
`i` of `rec`, of the corresponding slices of the ORIGINAL `S` — for the
weighted-average reducer, the weighted mean of those slices with the
nonzero entries of row `i` as weights, normalized to sum to one; for
any other reduction, the plain reduction of the neighbor values. -/
def specAggValue (agg : Aggregate) (S rec : Mat) (i r : ℕ) : ℚ :=
  match agg with
  | Aggregate.average =>
    let ts := rowTargets rec i
    let ws := ts.map (fun t => rec.entry i t)
    (List.zipWith (fun w t => w / ws.sum * S.entry r t) ws ts).sum
  | Aggregate.other f =>
    f ((rowTargets rec i).map (fun t => S.entry r t))

/-- Modelled from the spec (§6): a scikit-learn style factorizer.  Its
internal state is the readable `components_` matrix; `fitFn` maps the
fit input `X` (samples × features) to the transformed output
(samples × k) together with the new `components_` (k × features);
`transformFn` is the pre-fit transform. -/
structure Transformer where
  components_ : Mat
  fitFn : Mat → Mat × Mat
  transformFn : Mat → Mat

/-- `transformer.fit_transform(X)`: returns the transformed output and
the updated transformer state. -/
def Transformer.fit_transform (t : Transformer) (X : Mat) : Mat × Transformer :=
  let W := (t.fitFn X).1
  let C := (t.fitFn X).2
  (W, { t with components_ := C })

/-- Modelled from the spec: the default `sklearn.decomposition.NMF`
transformer constructed on line 169.  Fitting an input `X` of shape
(samples × features) produces `k = n_components` components, defaulting
to the number of features when `n_components` is `None`; the numeric
factor values themselves are abstract parameters `wVals`/`cVals`. -/
def defaultNMF (nc : Option ℕ) (wVals cVals : ℕ → ℕ → ℚ) : Transformer :=
  { components_ := Mat.mk 0 0 (fun _ _ => 0)
  , fitFn := fun X => (Mat.mk X.rows (nc.getD X.cols) wVals, Mat.mk (nc.getD X.cols) X.cols cVals)
  , transformFn := fun X => Mat.mk X.rows (nc.getD X.cols) wVals }

/-- `np.argmax` over column `j` of `A` (axis 0): index of the first
occurrence of the maximal entry. -/
def argmaxCol (A : Mat) (j : ℕ) : ℕ :=
  (List.range A.rows).foldl (fun best i => if A.entry best j < A.entry i j then i else best) 0

/-- Modelled from the spec (§4.1): the permutation computed by
`util.axis_sort(components, index=True)` — column indices reordered by
ascending peak (argmax) row index. -/
def axisSortIdx (A : Mat) : List ℕ :=
  (List.range A.cols).insertionSort (fun a b => argmaxCol A a ≤ argmaxCol A b)

/-- Column gather `A[:, idx]`. -/
def permCols (A : Mat) (idx : List ℕ) : Mat :=
  Mat.mk A.rows A.cols (fun i j => A.entry i (idx.getD j 0))

/-- Row gather `A[idx]` (line 184, `activations[idx]`). -/
def permRows (A : Mat) (idx : List ℕ) : Mat :=
  Mat.mk A.rows A.cols (fun i j => A.entry (idx.getD i 0) j)

/-- Modelled from the spec (§4.1): `util.axis_sort` returns the
column-sorted copy of `components` together with the permutation. -/
def axis_sort (A : Mat) : Mat × List ℕ :=
  (permCols A (axisSortIdx A), axisSortIdx A)

/-- Error raised by `decompose` (line 167). -/
inductive DecomposeError where
| parameterError

/-- Body of `decompose` once a transformer is fixed (lines 175-186):
fit-transform (or plain transform) on `S.T`, transpose back, read the
components, and optionally sort copies of both jointly. -/
def decomposeBody (t : Transformer) (S : Mat) (sortB fitB : Bool) :
    Transformer × Mat × Mat :=
  let t2 := if fitB then (t.fit_transform S.transpose).2 else t
  let activations := (if fitB then (t.fit_transform S.transpose).1 else t.transformFn S.transpose).transpose
  let components := t2.components_.transpose
  if sortB then
    (t2, (axis_sort components).1, permRows activations (axis_sort components).2)
  else
    (t2, components, activations)

/-- `decompose(S, n_components, transformer, sort, fit)` (lines
165-186): default-transformer construction and the `fit=False`
validation, then the body.  `wVals`/`cVals` stand for the numeric
output of the external default NMF. -/
def decompose (S : Mat) (nc : Option ℕ) (tOpt : Option Transformer)
    (sortB fitB : Bool) (wVals cVals : ℕ → ℕ → ℚ) :
    Except DecomposeError (Transformer × Mat × Mat) :=
  match tOpt with
  | none =>
    if fitB = false then Except.error DecomposeError.parameterError
    else Except.ok (decomposeBody (defaultNMF nc wVals cVals) S sortB fitB)
  | some t => Except.ok (decomposeBody t S sortB fitB)

/-- Success projection for `decompose` results (junk on error). -/
def decOk (e : Except DecomposeError (Transformer × Mat × Mat)) :
    Transformer × Mat × Mat :=
  match e with
  | Except.ok x => x
  | Except.error _ =>
    (Transformer.mk (Mat.mk 0 0 (fun _ _ => 0)) (fun X => (X, X)) (fun X => X),
     Mat.mk 0 0 (fun _ _ => 0), Mat.mk 0 0 (fun _ _ => 0))

/-- Statement of the spec's mask invariant for the non-mask path of
`hpss` on a real input: the two masks sum to one everywhere, and both
equal exactly `1/2` wherever both median responses raised to `power`
fall below the epsilon threshold. -/
def c2Property (rpow : ℚ → ℚ → ℚ) (S : Mat) (winHarm winPerc : ℕ) (power : ℚ) : Prop :=
  (((hpssMasks rpow S winHarm winPerc power false).1.add
      ((hpssMasks rpow S winHarm winPerc power false).2)).Eqv
    (Mat.const S.rows S.cols 1)) ∧
  ∀ i < S.rows, ∀ j < S.cols,
    rpow ((medianFilterH S winHarm).entry i j) power < SMALL_FLOAT →
    rpow ((medianFilterV S winPerc).entry i j) power < SMALL_FLOAT →
    (hpssMasks rpow S winHarm winPerc power false).1.entry i j = 1 / 2 ∧
    (hpssMasks rpow S winHarm winPerc power false).2.entry i j = 1 / 2

theorem SMALL_FLOAT_pos : (0 : ℚ) < SMALL_FLOAT := by
  unfold SMALL_FLOAT
  positivity

theorem small_float_le_two : SMALL_FLOAT ≤ 2 := by
  unfold SMALL_FLOAT
  rw [div_le_iff₀ (by positivity)]
  have h1 : (1 : ℚ) ≤ 2 ^ 1022 := one_le_pow₀ (by norm_num)
  nlinarith

/-- The two mask entries produced by `maskEntries` always sum to one,
in both the hard and the soft branch. -/
theorem maskEntries_sum (rpow : ℚ → ℚ → ℚ) (power : ℚ) (useHard : Bool) (h p : ℚ) :
    (maskEntries rpow power useHard h p).1 + (maskEntries rpow power useHard h p).2 = 1 := by
  unfold maskEntries
  cases useHard with
  | true =>
    by_cases hc : p < h <;> simp [hc]
  | false =>
    simp only [Bool.false_eq_true, if_false]
    by_cases hh : rpow h power < SMALL_FLOAT <;>
      by_cases hp : rpow p power < SMALL_FLOAT
    · simp only [hh, hp, and_self, if_true]
      norm_num
    · have hppos : (0 : ℚ) < rpow p power :=
        lt_of_lt_of_le SMALL_FLOAT_pos (not_lt.mp hp)
      simp only [hh, hp, and_false, if_true, if_false]
      rw [div_add_div_same, div_self (by linarith)]
    · have hhpos : (0 : ℚ) < rpow h power :=
        lt_of_lt_of_le SMALL_FLOAT_pos (not_lt.mp hh)
      simp only [hh, hp, false_and, if_true, if_false]
      rw [div_add_div_same, div_self (by linarith)]
    · have hhpos : (0 : ℚ) < rpow h power :=
        lt_of_lt_of_le SMALL_FLOAT_pos (not_lt.mp hh)
      have hppos : (0 : ℚ) < rpow p power :=
        lt_of_lt_of_le SMALL_FLOAT_pos (not_lt.mp hp)
      simp only [hh, hp, false_and, if_false]
      rw [div_add_div_same, div_self (by linarith)]

/-- C1: for every real-valued spectrogram `S`, every kernel size and
every power, the pair returned by `hpss` with `mask=False` sums
elementwise to `S`; for a complex input (given by its magnitude/phase
decomposition) the sum is the original complex array
`magnitude * phase`. -/
theorem hpss_sum_reconstructs (rpow : ℚ → ℚ → ℚ) (inp : Spectro)
    (winHarm winPerc : ℕ) (power : ℚ) :
    (((hpss rpow inp winHarm winPerc power false).1).add
        ((hpss rpow inp winHarm winPerc power false).2)).Eqv inp.original := by
  cases inp with
  | real S =>
    refine ⟨rfl, rfl, ?_⟩
    intro i hi j hj
    have hsum := maskEntries_sum rpow power (false || decide (power < SMALL_FLOAT))
      ((medianFilterH S winHarm).entry i j) ((medianFilterV S winPerc).entry i j)
    simp only [hpss, hpssMasks, Spectro.mag, Spectro.phaseM, Spectro.original,
      Mat.add, Mat.hadamard, Mat.map2, Mat.const, Bool.false_eq_true, if_false]
    linear_combination S.entry i j * hsum
  | complex m p =>
    refine ⟨rfl, rfl, ?_⟩
    intro i hi j hj
    have hsum := maskEntries_sum rpow power (false || decide (power < SMALL_FLOAT))
      ((medianFilterH m winHarm).entry i j) ((medianFilterV m winPerc).entry i j)
    simp only [hpss, hpssMasks, Spectro.mag, Spectro.phaseM, Spectro.original,
      Mat.add, Mat.hadamard, Mat.map2, Mat.const, Bool.false_eq_true, if_false]
    linear_combination m.entry i j * p.entry i j * hsum

/-- In the soft branch, wherever both raised responses fall below the
threshold, both mask entries are exactly `1/2` (the tie-break). -/
theorem maskEntries_soft_both (rpow : ℚ → ℚ → ℚ) (power h p : ℚ)
    (hh : rpow h power < SMALL_FLOAT) (hp : rpow p power < SMALL_FLOAT) :
    maskEntries rpow power false h p = (1 / 2, 1 / 2) := by
  unfold maskEntries
  simp only [Bool.false_eq_true, if_false, hh, hp, and_self, if_true]
  norm_num

/-- C2 counterexample: the claim quantifies over every `power > 0`, but
for `0 < power < SMALL_FLOAT` the code takes the hard binary-mask
branch, so at a position where both raised responses are below the
threshold the masks are `0` and `1`, not `1/2`. -/
theorem hpss_mask_claim_ce :
    ¬ (∀ (rpow : ℚ → ℚ → ℚ) (S : Mat) (winHarm winPerc : ℕ) (power : ℚ),
        0 < power → c2Property rpow S winHarm winPerc power) := by
  intro hcl
  have hpow : (0 : ℚ) < SMALL_FLOAT / 2 := by
    have := SMALL_FLOAT_pos
    linarith
  have hlt : SMALL_FLOAT / 2 < SMALL_FLOAT := by
    have := SMALL_FLOAT_pos
    linarith
  obtain ⟨-, h2⟩ := hcl (fun _ _ => 0) (Mat.mk 1 1 (fun _ _ => 0)) 1 1 (SMALL_FLOAT / 2) hpow
  have hmedH : (medianFilterH (Mat.mk 1 1 (fun _ _ => 0)) 1).entry 0 0 = 0 := by decide
  have hmedV : (medianFilterV (Mat.mk 1 1 (fun _ _ => 0)) 1).entry 0 0 = 0 := by decide
  have hm := h2 0 (by norm_num) 0 (by norm_num) SMALL_FLOAT_pos SMALL_FLOAT_pos
  have hb : (false || decide (SMALL_FLOAT / 2 < SMALL_FLOAT)) = true := by
    rw [decide_eq_true hlt]
    rfl
  have heval : (hpssMasks (fun _ _ => 0) (Mat.mk 1 1 (fun _ _ => 0)) 1 1
      (SMALL_FLOAT / 2) false).1.entry 0 0 = 0 := by
    simp only [hpssMasks]
    rw [hb]
    rw [hmedH, hmedV]
    simp [maskEntries]
  rw [heval] at hm
  exact absurd hm.1 (by norm_num)

/-- C2 (amended): for every real-valued `S` and every
`power ≥ SMALL_FLOAT` (rather than every `power > 0`), the harmonic and
percussive masks computed inside `hpss` sum to one at every position,
and wherever both median responses raised to `power` fall below the
epsilon threshold, both masks equal exactly `1/2`. -/
theorem hpss_mask_sum_amended (rpow : ℚ → ℚ → ℚ) (S : Mat)
    (winHarm winPerc : ℕ) (power : ℚ) (hpow : SMALL_FLOAT ≤ power) :
    c2Property rpow S winHarm winPerc power := by
  have hb : (false || decide (power < SMALL_FLOAT)) = false := by
    rw [decide_eq_false (not_lt.mpr hpow)]
    rfl
  constructor
  · refine ⟨rfl, rfl, ?_⟩
    intro i hi j hj
    exact maskEntries_sum rpow power (false || decide (power < SMALL_FLOAT))
      ((medianFilterH S winHarm).entry i j) ((medianFilterV S winPerc).entry i j)
  · intro i hi j hj hA hB
    constructor
    · show (maskEntries rpow power (false || decide (power < SMALL_FLOAT))
        ((medianFilterH S winHarm).entry i j) ((medianFilterV S winPerc).entry i j)).1 = 1 / 2
      rw [hb, maskEntries_soft_both rpow power _ _ hA hB]
    · show (maskEntries rpow power (false || decide (power < SMALL_FLOAT))
        ((medianFilterH S winHarm).entry i j) ((medianFilterV S winPerc).entry i j)).2 = 1 / 2
      rw [hb, maskEntries_soft_both rpow power _ _ hA hB]

theorem hpss_mask_sum_amended_witness :
    SMALL_FLOAT ≤ 2 ∧ c2Property (fun x _ => x * x) (Mat.mk 1 1 (fun _ _ => 0)) 1 1 2 :=
  ⟨small_float_le_two,
   hpss_mask_sum_amended (fun x _ => x * x) (Mat.mk 1 1 (fun _ _ => 0)) 1 1 2 small_float_le_two⟩

theorem exceptBind_ok {ε α β : Type} (e : Except ε α) (f : α → Except ε β) (b : β)
    (h : (e >>= f) = Except.ok b) : ∃ a, e = Except.ok a ∧ f a = Except.ok b := by
  cases e with
  | ok a => exact ⟨a, rfl, h⟩
  | error x => simp [Bind.bind, Except.bind] at h

theorem nnLoop_succ (agg : Aggregate) (n : ℕ) (st : NnState) :
    nnLoop agg (n + 1) st = (nnLoop agg n st) >>= (fun s => nnStep agg s n) := by
  unfold nnLoop
  rw [List.range_succ, List.foldlM_append]
  simp [List.foldlM]

theorem squeezeRow_vec_eq (l0 l : List ℚ) (h : squeezeRow l0 = Squeezed.vec l) : l = l0 := by
  match l0 with
  | [] => cases h; rfl
  | [x] => simp [squeezeRow] at h
  | x :: y :: t => cases h; rfl

theorem zipWith_div_sum (c : ℚ) (g : ℕ → ℚ) :
    ∀ (ws : List ℚ) (ts : List ℕ),
      (List.zipWith (fun w t => w / c * g t) ws ts).sum =
        (List.zipWith (fun w t => w * g t) ws ts).sum / c := by
  intro ws
  induction ws with
  | nil => intro ts; simp
  | cons w ws ih =>
    intro ts
    cases ts with
    | nil => simp
    | cons t ts =>
      rw [List.zipWith_cons_cons, List.zipWith_cons_cons, List.sum_cons,
        List.sum_cons, ih ts, add_div, div_mul_eq_mul_div]

theorem charact_keep (agg : Aggregate) (S rec : Mat) (n : ℕ) (M : Mat)
    (ht : rowTargets rec n = [])
    (hent : ∀ r i, M.entry r i =
      if i < n ∧ rowTargets rec i ≠ [] then specAggValue agg S rec i r
      else S.entry r i) :
    ∀ r i, M.entry r i =
      if i < n + 1 ∧ rowTargets rec i ≠ [] then specAggValue agg S rec i r
      else S.entry r i := by
  intro r i
  rw [hent r i]
  by_cases h1 : i < n ∧ rowTargets rec i ≠ []
  · rw [if_pos h1, if_pos ⟨by omega, h1.2⟩]
  · rw [if_neg h1, if_neg ?_]
    rintro ⟨hlt, hne⟩
    rcases Nat.lt_succ_iff_lt_or_eq.mp hlt with hlt2 | heq
    · exact h1 ⟨hlt2, hne⟩
    · subst heq; exact hne ht

theorem charact_write (agg : Aggregate) (S rec : Mat) (n : ℕ) (M : Mat) (g : ℕ → ℚ)
    (ht : rowTargets rec n ≠ [])
    (hg : ∀ r, g r = specAggValue agg S rec n r)
    (hent : ∀ r i, M.entry r i =
      if i < n ∧ rowTargets rec i ≠ [] then specAggValue agg S rec i r
      else S.entry r i) :
    ∀ r i, (setCol M n g).entry r i =
      if i < n + 1 ∧ rowTargets rec i ≠ [] then specAggValue agg S rec i r
      else S.entry r i := by
  intro r i
  simp only [setCol]
  by_cases hin : i = n
  · subst hin
    rw [if_pos rfl, if_pos ⟨Nat.lt_succ_self i, ht⟩]
    exact hg r
  · rw [if_neg hin, hent r i]
    by_cases h1 : i < n ∧ rowTargets rec i ≠ []
    · rw [if_pos h1, if_pos ⟨by omega, h1.2⟩]
    · rw [if_neg h1, if_neg ?_]
      rintro ⟨hlt, hne⟩
      exact h1 ⟨by omega, hne⟩

/-- Loop invariant of `nn_filter`: after a successful run of the first
`n` iterations from the initial state, the input fields are untouched
and every column of the output buffer is either the original column of
`S` (index not yet processed, or empty neighbor set) or the aggregate
of the ORIGINAL columns of `S` prescribed by the spec. -/
theorem nnLoop_charact (agg : Aggregate) (S rec : Mat) :
    ∀ (n : ℕ) (st' : NnState),
      nnLoop agg n (NnState.mk S rec S.copy) = Except.ok st' →
      st'.S = S ∧ st'.recMat = rec ∧
      st'.s_out.rows = S.rows ∧ st'.s_out.cols = S.cols ∧
      ∀ r i, st'.s_out.entry r i =
        if i < n ∧ rowTargets rec i ≠ [] then specAggValue agg S rec i r
        else S.entry r i := by
  intro n
  induction n with
  | zero =>
    intro st' h
    unfold nnLoop at h
    rw [List.range_zero] at h
    simp only [List.foldlM, pure, Except.pure, Except.ok.injEq] at h
    subst h
    refine ⟨rfl, rfl, rfl, rfl, ?_⟩
    intro r i
    simp [Mat.copy]
  | succ n ih =>
    intro st' h
    rw [nnLoop_succ] at h
    obtain ⟨stm, hm, hstep⟩ := exceptBind_ok _ _ _ h
    obtain ⟨hS, hrec, hrows, hcols, hent⟩ := ih stm hm
    cases agg with
    | other f =>
      simp only [nnStep] at hstep
      by_cases ht : rowTargets stm.recMat n = []
      · rw [if_pos ht] at hstep
        rw [Except.ok.injEq] at hstep
        subst hstep
        rw [hrec] at ht
        exact ⟨hS, hrec, hrows, hcols, charact_keep _ S rec n _ ht hent⟩
      · rw [if_neg ht] at hstep
        rw [Except.ok.injEq] at hstep
        subst hstep
        rw [hrec] at ht
        refine ⟨hS, hrec, hrows, hcols, ?_⟩
        refine charact_write _ S rec n _ _ ht ?_ hent
        intro r
        simp only [specAggValue, hS, hrec]
    | average =>
      simp only [nnStep] at hstep
      by_cases ht : rowTargets stm.recMat n = []
      · rw [if_pos ht] at hstep
        rw [Except.ok.injEq] at hstep
        subst hstep
        rw [hrec] at ht
        exact ⟨hS, hrec, hrows, hcols, charact_keep _ S rec n _ ht hent⟩
      · rw [if_neg ht] at hstep
        split at hstep
        · exact absurd hstep (by simp)
        · rename_i l hsq
          by_cases hz : l.sum = 0
          · rw [if_pos hz] at hstep
            exact absurd hstep (by simp)
          · rw [if_neg hz] at hstep
            rw [Except.ok.injEq] at hstep
            subst hstep
            have hl : l = (rowTargets stm.recMat n).map (fun t => stm.recMat.entry n t) :=
              squeezeRow_vec_eq _ _ hsq
            rw [hrec] at ht
            refine ⟨hS, hrec, hrows, hcols, ?_⟩
            refine charact_write _ S rec n _ _ ht ?_ hent
            intro r
            simp only [specAggValue]
            rw [zipWith_div_sum]
            rw [hl]
            simp only [hS, hrec]

theorem nnStep_no_param (agg : Aggregate) (st : NnState) (i : ℕ) (e : NnError)
    (h : nnStep agg st i = Except.error e) : e ≠ NnError.parameterError := by
  cases agg with
  | other f =>
    simp only [nnStep] at h
    by_cases ht : rowTargets st.recMat i = []
    · rw [if_pos ht] at h
      exact absurd h (by simp)
    · rw [if_neg ht] at h
      exact absurd h (by simp)
  | average =>
    simp only [nnStep] at h
    by_cases ht : rowTargets st.recMat i = []
    · rw [if_pos ht] at h
      exact absurd h (by simp)
    · rw [if_neg ht] at h
      split at h
      · rw [Except.error.injEq] at h
        subst h
        intro hc
        cases hc
      · rename_i l hsq
        by_cases hz : l.sum = 0
        · rw [if_pos hz] at h
          rw [Except.error.injEq] at h
          subst h
          intro hc
          cases hc
        · rw [if_neg hz] at h
          exact absurd h (by simp)

theorem nnLoop_no_param (agg : Aggregate) :
    ∀ (n : ℕ) (st : NnState) (e : NnError),
      nnLoop agg n st = Except.error e → e ≠ NnError.parameterError := by
  intro n
  induction n with
  | zero =>
    intro st e h
    unfold nnLoop at h
    rw [List.range_zero] at h
    simp [List.foldlM, pure, Except.pure] at h
  | succ n ih =>
    intro st e h
    rw [nnLoop_succ] at h
    cases hre : nnLoop agg n st with
    | error e2 =>
      rw [hre] at h
      simp only [Bind.bind, Except.bind, Except.error.injEq] at h
      subst h
      exact ih st e2 hre
    | ok stm =>
      rw [hre] at h
      simp only [Bind.bind, Except.bind] at h
      exact nnStep_no_param agg stm n e h

theorem nnStep_other_ok (f : List ℚ → ℚ) (st : NnState) (i : ℕ) :
    ∃ st2, nnStep (Aggregate.other f) st i = Except.ok st2 := by
  unfold nnStep
  by_cases ht : rowTargets st.recMat i = []
  · rw [if_pos ht]
    exact ⟨st, rfl⟩
  · rw [if_neg ht]
    exact ⟨_, rfl⟩

theorem nnLoop_other_ok (f : List ℚ → ℚ) :
    ∀ (n : ℕ) (st : NnState), ∃ st2, nnLoop (Aggregate.other f) n st = Except.ok st2 := by
  intro n
  induction n with
  | zero =>
    intro st
    refine ⟨st, ?_⟩
    unfold nnLoop
    rw [List.range_zero]
    rfl
  | succ n ih =>
    intro st
    obtain ⟨stm, hm⟩ := ih st
    obtain ⟨st2, hst⟩ := nnStep_other_ok f stm n
    refine ⟨st2, ?_⟩
    rw [nnLoop_succ, hm]
    simpa [Bind.bind, Except.bind] using hst

/-- C3: for every index `i` along the filtering axis, if row `i` of the
similarity graph has no nonzero entry the output column equals the
input column of `S` unchanged (so an all-zero graph returns `S`
itself); otherwise the output column is the aggregate of the columns of
the ORIGINAL input `S` at the nonzero column indices of row `i`, never
of output columns written in earlier iterations. -/
theorem nn_filter_original_slices (agg : Aggregate) (S rec : Mat)
    (hok : exOk (nn_filter agg S rec) = true) :
    (okMat (nn_filter agg S rec)).rows = S.rows ∧
    (okMat (nn_filter agg S rec)).cols = S.cols ∧
    ∀ i < S.cols, ∀ r,
      (okMat (nn_filter agg S rec)).entry r i =
        if rowTargets rec i = [] then S.entry r i
        else specAggValue agg S rec i r := by
  unfold nn_filter nn_filterSt at hok ⊢
  by_cases hsh : rec.rows ≠ S.cols ∨ rec.rows ≠ rec.cols
  · rw [if_pos hsh] at hok
    exact absurd hok (by simp [exOk, Except.map])
  · rw [if_neg hsh] at hok ⊢
    push_neg at hsh
    cases hre : nnLoop agg rec.rows (NnState.mk S rec S.copy) with
    | error e =>
      rw [hre] at hok
      exact absurd hok (by simp [exOk, Except.map])
    | ok st' =>
      obtain ⟨hS, hrec, hrows, hcols, hent⟩ := nnLoop_charact agg S rec rec.rows st' hre
      simp only [Except.map, okMat]
      refine ⟨hrows, hcols, ?_⟩
      intro i hi r
      rw [hent r i]
      have hi2 : i < rec.rows := by omega
      by_cases hne : rowTargets rec i = []
      · rw [if_neg (by simp [hne]), if_pos hne]
      · rw [if_pos ⟨hi2, hne⟩, if_neg hne]

theorem nn_filter_original_slices_witness :
    exOk (nn_filter (Aggregate.other (fun l => l.sum))
        (Mat.mk 2 3 (fun r c => ((r * 3 + c + 1 : ℕ) : ℚ)))
        (Mat.mk 3 3 (fun _ _ => 0))) = true ∧
    ((okMat (nn_filter (Aggregate.other (fun l => l.sum))
        (Mat.mk 2 3 (fun r c => ((r * 3 + c + 1 : ℕ) : ℚ)))
        (Mat.mk 3 3 (fun _ _ => 0)))).rows = 2 ∧
     (okMat (nn_filter (Aggregate.other (fun l => l.sum))
        (Mat.mk 2 3 (fun r c => ((r * 3 + c + 1 : ℕ) : ℚ)))
        (Mat.mk 3 3 (fun _ _ => 0)))).cols = 3 ∧
     ∀ i < 3, ∀ r,
       (okMat (nn_filter (Aggregate.other (fun l => l.sum))
          (Mat.mk 2 3 (fun r c => ((r * 3 + c + 1 : ℕ) : ℚ)))
          (Mat.mk 3 3 (fun _ _ => 0)))).entry r i =
         if rowTargets (Mat.mk 3 3 (fun _ _ => 0)) i = []
         then ((r * 3 + i + 1 : ℕ) : ℚ)
         else specAggValue (Aggregate.other (fun l => l.sum))
           (Mat.mk 2 3 (fun r c => ((r * 3 + c + 1 : ℕ) : ℚ)))
           (Mat.mk 3 3 (fun _ _ => 0)) i r) :=
  ⟨by decide,
   nn_filter_original_slices (Aggregate.other (fun l => l.sum))
     (Mat.mk 2 3 (fun r c => ((r * 3 + c + 1 : ℕ) : ℚ)))
     (Mat.mk 3 3 (fun _ _ => 0)) (by decide)⟩

/-- C4 (evaluation at the failing input): with `aggregate=np.average`
and a row whose neighbor set has exactly one element, the extracted
weights collapse under `squeeze` to a 0-d array and `np.average` raises
a TypeError, instead of producing the weighted mean of the single
neighbor slice that the documentation and spec promise. -/
theorem nn_filter_average_single_neighbor_bug :
    nn_filter Aggregate.average
      (Mat.mk 2 2 (fun r c => ((r * 2 + c + 1 : ℕ) : ℚ)))
      (Mat.mk 2 2 (fun i j => if i = 0 ∧ j = 1 then 2 else 0)) =
    Except.error NnError.npTypeError := by
  rfl

/-- C5: `nn_filter` fails with `ParameterError` — raised by the shape
validation, before any filtering work — exactly when the supplied
similarity graph is not square or its dimension differs from the
length of `S` along the filtering axis. -/
theorem nn_filter_validation_iff (agg : Aggregate) (S rec : Mat) :
    nn_filter agg S rec = Except.error NnError.parameterError ↔
      (rec.rows ≠ S.cols ∨ rec.rows ≠ rec.cols) := by
  constructor
  · intro h
    by_contra hsh
    unfold nn_filter nn_filterSt at h
    rw [if_neg hsh] at h
    cases hre : nnLoop agg rec.rows (NnState.mk S rec S.copy) with
    | ok st' =>
      rw [hre] at h
      exact absurd h (by simp [Except.map])
    | error e =>
      rw [hre] at h
      simp only [Except.map, Except.error.injEq] at h
      exact nnLoop_no_param agg rec.rows (NnState.mk S rec S.copy) e hre h
  · intro h
    unfold nn_filter nn_filterSt
    rw [if_pos h]
    rfl

/-- C9: neither `hpss` nor `nn_filter` mutates its input arrays: after
a successful `nn_filter` run the state fields holding `S` and the
similarity graph are elementwise unchanged (all writes go to the fresh
copy `s_out`), and the state-passing `hpss` wrapper returns the
caller's input arrays untouched. -/
theorem inputs_not_mutated (agg : Aggregate) (S rec : Mat)
    (rpow : ℚ → ℚ → ℚ) (inp : Spectro) (winHarm winPerc : ℕ)
    (power : ℚ) (mask : Bool)
    (hok : exOk (nn_filterSt agg S rec) = true) :
    (okSt (nn_filterSt agg S rec)).S = S ∧
    (okSt (nn_filterSt agg S rec)).recMat = rec ∧
    (hpssCall rpow inp winHarm winPerc power mask).1 = inp := by
  unfold nn_filterSt at hok ⊢
  by_cases hsh : rec.rows ≠ S.cols ∨ rec.rows ≠ rec.cols
  · rw [if_pos hsh] at hok
    exact absurd hok (by simp [exOk])
  · rw [if_neg hsh] at hok ⊢
    cases hre : nnLoop agg rec.rows (NnState.mk S rec S.copy) with
    | error e =>
      rw [hre] at hok
      exact absurd hok (by simp [exOk])
    | ok st' =>
      obtain ⟨hS, hrec, -, -, -⟩ := nnLoop_charact agg S rec rec.rows st' hre
      exact ⟨hS, hrec, rfl⟩

theorem inputs_not_mutated_witness :
    exOk (nn_filterSt (Aggregate.other (fun l => l.sum))
        (Mat.mk 1 1 (fun _ _ => 5)) (Mat.mk 1 1 (fun _ _ => 0))) = true ∧
    ((okSt (nn_filterSt (Aggregate.other (fun l => l.sum))
        (Mat.mk 1 1 (fun _ _ => 5)) (Mat.mk 1 1 (fun _ _ => 0)))).S =
        Mat.mk 1 1 (fun _ _ => 5) ∧
     (okSt (nn_filterSt (Aggregate.other (fun l => l.sum))
        (Mat.mk 1 1 (fun _ _ => 5)) (Mat.mk 1 1 (fun _ _ => 0)))).recMat =
        Mat.mk 1 1 (fun _ _ => 0) ∧
     (hpssCall (fun x _ => x * x) (Spectro.real (Mat.mk 1 1 (fun _ _ => 5)))
        1 1 2 false).1 = Spectro.real (Mat.mk 1 1 (fun _ _ => 5))) :=
  ⟨by decide,
   inputs_not_mutated (Aggregate.other (fun l => l.sum))
     (Mat.mk 1 1 (fun _ _ => 5)) (Mat.mk 1 1 (fun _ _ => 0))
     (fun x _ => x * x) (Spectro.real (Mat.mk 1 1 (fun _ _ => 5)))
     1 1 2 false (by decide)⟩

/-- C10 counterexample: the claim asserts that once shape validation
passes, the filtering loop runs to completion on every input; but with
`aggregate=np.average` a valid-shape graph containing a row with
exactly one neighbor makes the loop abort (TypeError from `np.average`
on the squeezed 0-d weights). -/
theorem nn_filter_loop_completion_ce :
    ¬ (∀ (agg : Aggregate) (S rec : Mat),
        rec.rows = S.cols → rec.rows = rec.cols →
        ((∀ i, ∀ t ∈ rowTargets rec i, t < S.cols) ∧
          exOk (nn_filter agg S rec) = true)) := by
  intro hcl
  have h := (hcl Aggregate.average (Mat.mk 1 2 (fun _ c => ((c + 1 : ℕ) : ℚ)))
      (Mat.mk 2 2 (fun i j => if i = 0 ∧ j = 1 then 1 else 0)) rfl rfl).2
  exact absurd h (by decide)

/-- C10 (amended): once shape validation has passed, every neighbor
index read from any row of `rec` is strictly below the length of `S`
along the filtering axis, so every gather of neighbor slices is in
bounds; and for every aggregation function other than the
weighted-average reducer the filtering loop runs to completion. -/
theorem nn_filter_bounds_amended (S rec : Mat)
    (h1 : rec.rows = S.cols) (h2 : rec.rows = rec.cols) :
    (∀ i, ∀ t ∈ rowTargets rec i, t < S.cols) ∧
    (∀ f : List ℚ → ℚ, exOk (nn_filter (Aggregate.other f) S rec) = true) := by
  constructor
  · intro i t ht
    have hmem : t ∈ List.range rec.cols := List.mem_of_mem_filter ht
    have := List.mem_range.mp hmem
    omega
  · intro f
    unfold nn_filter nn_filterSt
    rw [if_neg ?_]
    · obtain ⟨st2, hst⟩ := nnLoop_other_ok f rec.rows (NnState.mk S rec S.copy)
      rw [hst]
      rfl
    · rintro (hc | hc)
      · exact hc h1
      · exact hc h2

theorem nn_filter_bounds_amended_witness :
    (Mat.mk 2 2 (fun i j => if i = j then (1 : ℚ) else 0)).rows =
      (Mat.mk 2 2 (fun r c => ((r + c : ℕ) : ℚ))).cols ∧
    (Mat.mk 2 2 (fun i j => if i = j then (1 : ℚ) else 0)).rows =
      (Mat.mk 2 2 (fun i j => if i = j then (1 : ℚ) else 0)).cols ∧
    ((∀ i, ∀ t ∈ rowTargets (Mat.mk 2 2 (fun i j => if i = j then (1 : ℚ) else 0)) i,
        t < (Mat.mk 2 2 (fun r c => ((r + c : ℕ) : ℚ))).cols) ∧
     (∀ f : List ℚ → ℚ, exOk (nn_filter (Aggregate.other f)
        (Mat.mk 2 2 (fun r c => ((r + c : ℕ) : ℚ)))
        (Mat.mk 2 2 (fun i j => if i = j then (1 : ℚ) else 0))) = true)) :=
  ⟨rfl, rfl,
   nn_filter_bounds_amended (Mat.mk 2 2 (fun r c => ((r + c : ℕ) : ℚ)))
     (Mat.mk 2 2 (fun i j => if i = j then (1 : ℚ) else 0)) rfl rfl⟩

/-- C7 counterexample: the claim says `hpss` fails with
`ParameterError` on a malformed kernel size, but `hpss` performs no
validation at all — a zero kernel size fails inside the external median
filter with a different error. -/
theorem hpss_kernel_error_ce :
    hpssRun (fun x _ => x * x) (Spectro.real (Mat.mk 1 1 (fun _ _ => 0)))
      (KernelSize.scalar 0) 2 false = Except.error HpssError.filterError ∧
    hpssRun (fun x _ => x * x) (Spectro.real (Mat.mk 1 1 (fun _ _ => 0)))
      (KernelSize.scalar 0) 2 false ≠ Except.error HpssError.parameterError := by
  constructor
  · rfl
  · intro hc
    rw [(show hpssRun (fun x _ => x * x) (Spectro.real (Mat.mk 1 1 (fun _ _ => 0)))
        (KernelSize.scalar 0) 2 false = Except.error HpssError.filterError from rfl)] at hc
    simp at hc

/-- C7 (amended): `hpss` performs no kernel-size validation of its own;
whenever either resolved window size is non-positive, the call fails
with the external median-filter error, never with `ParameterError`. -/
theorem hpss_kernel_error_amended (rpow : ℚ → ℚ → ℚ) (inp : Spectro)
    (ks : KernelSize) (power : ℚ) (mask : Bool)
    (hbad : (resolveKernel ks).1 ≤ 0 ∨ (resolveKernel ks).2 ≤ 0) :
    hpssRun rpow inp ks power mask = Except.error HpssError.filterError ∧
    hpssRun rpow inp ks power mask ≠ Except.error HpssError.parameterError := by
  have h1 : hpssRun rpow inp ks power mask = Except.error HpssError.filterError := by
    unfold hpssRun
    rw [if_pos hbad]
  refine ⟨h1, ?_⟩
  rw [h1]
  simp

theorem hpss_kernel_error_amended_witness :
    ((resolveKernel (KernelSize.pair 3 (-2))).1 ≤ 0 ∨
      (resolveKernel (KernelSize.pair 3 (-2))).2 ≤ 0) ∧
    (hpssRun (fun x _ => x * x) (Spectro.real (Mat.mk 1 1 (fun _ _ => 1)))
        (KernelSize.pair 3 (-2)) 2 false = Except.error HpssError.filterError ∧
     hpssRun (fun x _ => x * x) (Spectro.real (Mat.mk 1 1 (fun _ _ => 1)))
        (KernelSize.pair 3 (-2)) 2 false ≠ Except.error HpssError.parameterError) :=
  ⟨by decide,
   hpss_kernel_error_amended (fun x _ => x * x)
     (Spectro.real (Mat.mk 1 1 (fun _ _ => 1)))
     (KernelSize.pair 3 (-2)) 2 false (by decide)⟩

/-- C8: when `n_components` is unset, the default-constructed NMF uses
the number of input features `S.shape[0]` as its component count: the
components returned by `decompose(S)` form an `S.rows × S.rows` matrix,
the activations an `S.rows × S.cols` matrix, and the fitted
transformer's `components_` has `S.rows` rows. -/
theorem decompose_default_components (S : Mat) (wVals cVals : ℕ → ℕ → ℚ) :
    (decOk (decompose S none none false true wVals cVals)).2.1.rows = S.rows ∧
    (decOk (decompose S none none false true wVals cVals)).2.1.cols = S.rows ∧
    (decOk (decompose S none none false true wVals cVals)).2.2.rows = S.rows ∧
    (decOk (decompose S none none false true wVals cVals)).2.2.cols = S.cols ∧
    (decOk (decompose S none none false true wVals cVals)).1.components_.rows = S.rows :=
  ⟨rfl, rfl, rfl, rfl, rfl⟩

theorem map_range_getD (g : ℕ → ℚ) :
    ∀ (l : List ℕ), (List.range l.length).map (fun k => g (l.getD k 0)) = l.map g := by
  intro l
  induction l with
  | nil => simp
  | cons a t ih =>
    rw [List.length_cons, List.range_succ_eq_map, List.map_cons, List.map_map]
    simp only [Function.comp_def, List.getD_cons_succ, List.getD_cons_zero]
    rw [ih, List.map_cons]

/-- Applying the same permutation to the columns of the component
matrix and the rows of the activation matrix leaves the matrix product
unchanged. -/
theorem mul_perm_eqv (C A : Mat) :
    ((axis_sort C).1.mul (permRows A (axis_sort C).2)).Eqv (C.mul A) := by
  refine ⟨rfl, rfl, ?_⟩
  intro i hi j hj
  simp only [axis_sort, Mat.mul, permCols, permRows]
  have hperm : (axisSortIdx C).Perm (List.range C.cols) := List.perm_insertionSort _ _
  have hlen : (axisSortIdx C).length = C.cols := by
    rw [hperm.length_eq, List.length_range]
  have he := map_range_getD (fun m => C.entry i m * A.entry m j) (axisSortIdx C)
  rw [hlen] at he
  rw [he]
  exact (hperm.map (fun m => C.entry i m * A.entry m j)).sum_eq

theorem decomposeBody_sort_eqv (t : Transformer) (S : Mat) (fitB : Bool) :
    ((decomposeBody t S true fitB).2.1.mul (decomposeBody t S true fitB).2.2).Eqv
      ((decomposeBody t S false fitB).2.1.mul (decomposeBody t S false fitB).2.2) ∧
    (decomposeBody t S true fitB).1.components_ =
      (decomposeBody t S false fitB).1.components_ := by
  constructor
  · exact mul_perm_eqv _ _
  · rfl

/-- C6: `decompose(S, sort=True)` returns components and activations
whose matrix product equals the product of the unsorted components and
activations (the permutation is applied jointly to component columns
and activation rows), and sorting never changes the transformer's
internal state — only the returned copies. -/
theorem decompose_sort_preserves_product (S : Mat) (nc : Option ℕ)
    (tOpt : Option Transformer) (fitB : Bool) (wVals cVals : ℕ → ℕ → ℚ) :
    ((decOk (decompose S nc tOpt true fitB wVals cVals)).2.1.mul
        (decOk (decompose S nc tOpt true fitB wVals cVals)).2.2).Eqv
      ((decOk (decompose S nc tOpt false fitB wVals cVals)).2.1.mul
        (decOk (decompose S nc tOpt false fitB wVals cVals)).2.2) ∧
    (decOk (decompose S nc tOpt true fitB wVals cVals)).1.components_ =
      (decOk (decompose S nc tOpt false fitB wVals cVals)).1.components_ := by
  cases tOpt with
  | none =>
    cases fitB with
    | false => exact ⟨⟨rfl, rfl, fun i hi j hj => rfl⟩, rfl⟩
    | true => exact decomposeBody_sort_eqv (defaultNMF nc wVals cVals) S true
  | some t => exact decomposeBody_sort_eqv t S fitB

end LibrosaDecompose
